import Mathlib

/-!
Shallow embedding of the kitchen-sync job scheduling and execution engine.

Conventions used throughout this development:
* JavaScript `Date` values are modelled as `Int` milliseconds since the epoch,
  with calendar arithmetic taken in UTC (no daylight-saving shifts), so that
  `setMinutes(+15)`, `setHours(+1)` and `setDate(+1)` are the fixed increments
  of 15*60*1000, 60*60*1000 and 24*60*60*1000 milliseconds.
* Database rows are modelled as Lean structures, tables as lists of rows, and
  Prisma queries/updates as pure functions on a `Db` state.  A Prisma
  `$transaction` with `Serializable` isolation is modelled by its serialized
  semantics: each transaction is a single atomic function application, and
  concurrency is modelled by composing transactions in some serial order.
* Fallible operations return `Except`; filesystem and subprocess side effects
  are made explicit in the returned values (effect traces) so that "what was
  written to disk" is a provable statement.
-/

namespace KitchenSync

/-! ## Cadence arithmetic
Source: `src/unnamed/part_009` (`sync-job-scheduler`), `addCadenceInterval`
and `calculateNextRunAt`. -/
inductive SyncJobCadence where
  | FIFTEEN_MINUTES
  | HOURLY
  | DAILY
deriving DecidableEq, Repr

/-- Milliseconds added by one `addCadenceInterval` step, in the UTC model of
JavaScript `Date` arithmetic. -/
def cadenceMs : SyncJobCadence → Int
  | .FIFTEEN_MINUTES => 15 * 60 * 1000
  | .HOURLY => 60 * 60 * 1000
  | .DAILY => 24 * 60 * 60 * 1000

/-- Models `addCadenceInterval(base, cadence)`: returns a new date one cadence
interval after `base`. -/
def addCadenceInterval (base : Int) (cadence : SyncJobCadence) : Int :=
  base + cadenceMs cadence

/-- The `while (candidate <= now) candidate = addCadenceInterval(candidate, cadence)`
loop from `calculateNextRunAt`. -/
def catchUp (cadence : SyncJobCadence) (now candidate : Int) : Int :=
  if candidate ≤ now then catchUp cadence now (addCadenceInterval candidate cadence)
  else candidate
termination_by (now + 1 - candidate).toNat
decreasing_by
  have : 0 < cadenceMs cadence := by cases cadence <;> simp [cadenceMs]
  simp only [addCadenceInterval]
  omega

/-- Models `calculateNextRunAt(cadence, previousNextRunAt, now)` from the scheduler. -/
def calculateNextRunAt (cadence : SyncJobCadence) (previousNextRunAt : Option Int)
    (now : Int) : Int :=
  let base := previousNextRunAt.getD now
  catchUp cadence now (addCadenceInterval base cadence)

/-! ## Data model
Source: the Prisma schema (`src/unnamed/part_000`) restricted to the fields the
scheduler and executor read or write.  `startedAt` is modelled as optional,
matching its use in the executor (`run.startedAt ?? startTime`). -/
inductive SyncJobStatus where
  | ACTIVE
  | PAUSED
deriving DecidableEq, Repr

inductive JobRunStatus where
  | PENDING
  | RUNNING
  | SUCCESS
  | FAILED
  | CANCELLED
deriving DecidableEq, Repr

structure SyncJob where
  id : Nat
  cadence : SyncJobCadence
  status : SyncJobStatus
  nextRunAt : Option Int := none
  lastRunAt : Option Int := none
deriving DecidableEq, Repr

structure JobRun where
  id : Nat
  jobId : Nat
  status : JobRunStatus
  createdAt : Int
  startedAt : Option Int := none
  finishedAt : Option Int := none
  message : String := ""
  logLocation : Option String := none
deriving DecidableEq, Repr

/-- The database state seen by the scheduler and executor.  `nextRunId` models
the generation of fresh `JobRun` primary keys. -/
structure Db where
  jobs : List SyncJob
  runs : List JobRun
  nextRunId : Nat := 0
deriving Repr

/-- All runs belonging to job `jid`. -/
def runsForJob (db : Db) (jid : Nat) : List JobRun :=
  db.runs.filter (fun r => r.jobId == jid)

/-- Models `prisma.syncJob.findUnique({ where: { id } })`. -/
def findJob (db : Db) (jid : Nat) : Option SyncJob :=
  db.jobs.find? (fun j => j.id == jid)

/-- A run that counts against the one-outstanding-run invariant. -/
def outstanding (r : JobRun) : Bool :=
  r.status == JobRunStatus.PENDING || r.status == JobRunStatus.RUNNING

/-! ## Cadence scheduler
Source: `enqueueDueSyncJobs` in `src/unnamed/part_009` (`sync-job-scheduler`).
Each per-job Serializable transaction is one atomic function application. -/
/-- The `where` clause of the due-jobs query:
`nextRunAt` is `null` or `≤ now`. -/
def isDue (now : Int) (j : SyncJob) : Bool :=
  match j.nextRunAt with
  | none => true
  | some t => decide (t ≤ now)

/-- One per-job enqueue transaction from `enqueueDueSyncJobs`: re-read the job,
bail out if it is gone, not ACTIVE, or no longer due; otherwise create a
PENDING `JobRun` (`createdAt` defaults to the transaction time) and advance
`nextRunAt`.  Returns the new state and whether a run was enqueued. -/
def enqueueSyncJobTx (now : Int) (db : Db) (jid : Nat) : Db × Bool :=
  match db.jobs.find? (fun j => j.id == jid) with
  | none => (db, false)
  | some job =>
    if job.status ≠ SyncJobStatus.ACTIVE then (db, false)
    else if (match job.nextRunAt with
             | some t => decide (now < t)
             | none => false) then (db, false)
    else
      let nextRunAt := calculateNextRunAt job.cadence job.nextRunAt now
      let run : JobRun := { id := db.nextRunId, jobId := job.id,
                            status := JobRunStatus.PENDING, createdAt := now }
      ({ jobs := db.jobs.map fun j =>
           if j.id == job.id then { j with nextRunAt := some nextRunAt } else j,
         runs := db.runs ++ [run],
         nextRunId := db.nextRunId + 1 }, true)

/-- One iteration of the `for (const { id } of dueJobs)` loop: run the enqueue
transaction and bump the success counter. -/
def enqueueStep (now : Int) (acc : Db × Nat) (jid : Nat) : Db × Nat :=
  let r := enqueueSyncJobTx now acc.1 jid
  (r.1, acc.2 + (if r.2 then 1 else 0))

/-- Models `enqueueDueSyncJobs({ now })`: query the due ACTIVE jobs, then run one
enqueue transaction per due job id, counting successes. -/
def enqueueDueSyncJobs (now : Int) (db : Db) : Db × Nat :=
  let dueIds := (db.jobs.filter fun j =>
    j.status == SyncJobStatus.ACTIVE && isDue now j).map (fun j => j.id)
  dueIds.foldl (enqueueStep now) (db, 0)

/-- The fresh PENDING run inserted by one enqueue transaction. -/
def newPendingRun (rid jid : Nat) (now : Int) : JobRun :=
  { id := rid, jobId := jid, status := JobRunStatus.PENDING, createdAt := now }

/-! ## The outstanding-run scenario for the scheduler (C1)
The enqueue transaction reads only the job row (`status`, `nextRunAt`); it
never inspects the `JobRun` table, so nothing stops it from inserting a new
PENDING run while an earlier run of the same job is still PENDING or
RUNNING. -/
/-- A single ACTIVE hourly job with no schedule yet. -/
def schedJob1 : SyncJob :=
  { id := 1, cadence := SyncJobCadence.HOURLY, status := SyncJobStatus.ACTIVE }

def schedDb0 : Db := { jobs := [schedJob1], runs := [], nextRunId := 0 }

/-! ## Run claimer
Source: `claimNextPendingRun` in `src/lib/calendarsync/job-runner.ts`. -/
/-- Models `tx.jobRun.findFirst({ where: { status: PENDING }, orderBy: { createdAt: "asc" } })`:
the PENDING run with the least `createdAt` (first in table order on ties). -/
def earliestByCreatedAt : List JobRun → Option JobRun
  | [] => none
  | r :: rs =>
    match earliestByCreatedAt rs with
    | none => some r
    | some m => if r.createdAt ≤ m.createdAt then some r else some m

def findFirstPending (db : Db) : Option JobRun :=
  earliestByCreatedAt (db.runs.filter (fun r => r.status == JobRunStatus.PENDING))

/-- Models `tx.jobRun.updateMany({ where: { id, status: PENDING }, data: { status: RUNNING, startedAt } })`:
the conditional PENDING→RUNNING transition; returns the new state and the
number of rows affected. -/
def updateManyClaim (db : Db) (runId : Nat) (startedAt : Int) : Db × Nat :=
  let matched := db.runs.filter (fun r => r.id == runId && r.status == JobRunStatus.PENDING)
  ({ db with runs := db.runs.map (fun r =>
      if r.id == runId && r.status == JobRunStatus.PENDING
      then { r with status := JobRunStatus.RUNNING, startedAt := some startedAt }
      else r) }, matched.length)

/-- Models `claimNextPendingRun` as one serialized transaction: find the oldest
PENDING run and apply the conditional transition.  Inside a single
Serializable transaction the run found is still PENDING when updated, so the
`continue` branch (zero rows affected) is unreachable; it is modelled as
returning no claim. -/
def claimNextPendingRun (db : Db) (t : Int) : Db × Option JobRun :=
  match findFirstPending db with
  | none => (db, none)
  | some run =>
    let r := updateManyClaim db run.id t
    if r.2 == 0 then (db, none)
    else (r.1, some { run with status := JobRunStatus.RUNNING, startedAt := some t })

/-! ## Executor
Source: `executeRun` and `processPendingJobRuns` in
`src/lib/calendarsync/job-runner.ts`.  The filesystem and subprocess outcomes
that `executeRun` observes are collected in an environment record; the final
`prisma.$transaction` (terminal run update + `lastRunAt`) is one atomic
function application. -/
/-- Outcome of the `runCalendarSync` call (or of the steps before it) inside
`executeRun`'s try block. -/
inductive SyncOutcome where
  | success (stdout stderr : String) (exitCode : Int) (durationMs : Int)
  | execError (stdout stderr : String) (exitCode : Option Int)
  | binaryNotFound (path : String)
  | otherError (msg : String)
deriving DecidableEq, Repr

structure ExecEnv where
  sourceAuthStorage : Option String
  destAuthStorage : Option String
  outcome : SyncOutcome
  writeLogOk : Bool
  finishTime : Int
deriving Repr

/-- Last three lines of stderr, as in `extractFailureDetails`. -/
def stderrTail (stderr : String) : String :=
  let lines := (stderr.trim.splitOn "\n")
  String.intercalate "\n" (lines.drop (lines.length - 3))

def execErrorMessage (exitCode : Option Int) (stderr : String) : String :=
  let base := "CalendarSync exited with code " ++
    (match exitCode with
     | some c => toString c
     | none => "unknown") ++ "."
  if stderr.trim ≠ "" then base ++ "\n\nError output:\n" ++ stderrTail stderr else base

def binaryNotFoundMessage (path : String) : String :=
  "CalendarSync binary is not executable or missing at path: " ++ path ++
    ". Ensure the container image bundles the binary or pass a custom path via CALENDARSYNC_BINARY."

def noAuthStorageMessage : String :=
  "CalendarSync execution failed: Neither source nor destination account has CalendarSync auth storage configured. Please set up auth storage for at least one account."

/-- The try/catch of `executeRun` up to and including `extractFailureDetails`:
yields the `success` flag and the run `message`. -/
def executeRunAttempt (env : ExecEnv) : Bool × String :=
  if env.sourceAuthStorage.isNone && env.destAuthStorage.isNone then
    (false, noAuthStorageMessage)
  else
    match env.outcome with
    | SyncOutcome.success _ _ _ d =>
      (true, "CalendarSync completed successfully in " ++ toString d ++ "ms.")
    | SyncOutcome.execError _ st code => (false, execErrorMessage code st)
    | SyncOutcome.binaryNotFound p => (false, binaryNotFoundMessage p)
    | SyncOutcome.otherError m => (false, "CalendarSync execution failed: " ++ m)

/-- Models `executeRun`: run the attempt, persist the log (`logLocation` stays `null`
when that fails), then in one transaction set the run's terminal status,
`finishedAt`, `message`, `logLocation`, and the owning job's `lastRunAt`. -/
def executeRun (env : ExecEnv) (db : Db) (run : JobRun) : Db × Bool :=
  let a := executeRunAttempt env
  let success := a.1
  let message := a.2
  let logLocation := if env.writeLogOk
    then some (toString run.jobId ++ "/" ++ toString run.id ++ ".log")
    else none
  ({ db with
     runs := db.runs.map (fun x =>
       if x.id == run.id then
         { x with
           status := if success then JobRunStatus.SUCCESS else JobRunStatus.FAILED,
           finishedAt := some env.finishTime,
           message := message,
           logLocation := logLocation }
       else x),
     jobs := db.jobs.map (fun j =>
       if j.id == run.jobId then { j with lastRunAt := some env.finishTime } else j) },
   success)

/-! ## Executor loop control flow
`processPendingJobRuns` in `src/lib/calendarsync/job-runner.ts`.  The loop's
interaction with the database and subprocesses is abstracted into a script:
the i-th entry gives the outcome of the i-th `claimNextPendingRun` call and,
when a run was claimed, of the `executeRun` call for it.  As in the source,
only `executeRun` sits inside the try/catch; the claim call does not. -/
inductive ClaimCallResult where
  | exn (msg : String)
  | found (runId : Nat)
  | empty
deriving DecidableEq, Repr

/-- Whether a claim call outcome is a thrown exception. -/
def isClaimExn : ClaimCallResult → Bool
  | ClaimCallResult.exn _ => true
  | _ => false

inductive RunExecResult where
  | exn (msg : String)
  | done (success : Bool)
deriving DecidableEq, Repr

structure LoopTotals where
  processed : Nat
  succeeded : Nat
  failed : Nat
deriving DecidableEq, Repr

/-- The `while (true)` loop of `processPendingJobRuns`: claim, then execute
inside try/catch.  An exhausted script means the claim call returns `null`. -/
def processPendingJobRuns :
    List (ClaimCallResult × RunExecResult) → LoopTotals → Except String LoopTotals
  | [], acc => Except.ok acc
  | (c, e) :: rest, acc =>
    match c with
    | ClaimCallResult.exn msg => Except.error msg
    | ClaimCallResult.empty => Except.ok acc
    | ClaimCallResult.found _ =>
      match e with
      | RunExecResult.exn _ =>
        processPendingJobRuns rest
          { acc with processed := acc.processed + 1, failed := acc.failed + 1 }
      | RunExecResult.done true =>
        processPendingJobRuns rest
          { acc with processed := acc.processed + 1, succeeded := acc.succeeded + 1 }
      | RunExecResult.done false =>
        processPendingJobRuns rest
          { acc with processed := acc.processed + 1, failed := acc.failed + 1 }

/-! ## Process runner
Source: `runCalendarSync` and `cleanupTempFiles` in
`src/lib/calendarsync/executor.ts`.  The environment records which of the
runner's effects succeed and how the child process ends; the returned pair is
(the settled promise, whether the scratch directory still exists after the
call returns). -/
inductive ChildOutcome where
  | spawnError (msg : String)
  | exited (code : Option Int) (termSignal : Option String)
deriving DecidableEq, Repr

structure RunnerEnv where
  binaryOk : Bool
  mkdtempOk : Bool
  writeFileOk : Bool
  child : ChildOutcome
  rmOk : Bool
deriving DecidableEq, Repr

/-- Models `cleanupTempFiles(directory, keepConfigFile)`: a no-op when retention is
requested, otherwise `rm -rf` the scratch directory.  Returns whether the
directory still exists, or an error when `rm` itself fails. -/
def cleanupTempFiles (keepConfigFile : Bool) (rmOk : Bool) : Except String Bool :=
  if keepConfigFile then Except.ok true
  else if rmOk then Except.ok false
  else Except.error "rm failed"

/-- Models `runCalendarSync`: check the binary, create the scratch directory, write
the config file into it, spawn the child, and settle from the child's
`error`/`close` events (cancellation delivers SIGTERM and surfaces as a
`close` with a termination signal and a null exit code).  Cleanup runs in the
`error` and `close` handlers only — an exception between `mkdtemp` and the
spawn (e.g. the config `writeFile` failing) propagates without any cleanup. -/
def runCalendarSync (env : RunnerEnv) (keepConfigFile : Bool) :
    Except String String × Bool :=
  if ¬ env.binaryOk then (Except.error "CalendarSyncBinaryNotFoundError", false)
  else if ¬ env.mkdtempOk then (Except.error "mkdtemp failed", false)
  else if ¬ env.writeFileOk then (Except.error "writeFile failed", true)
  else
    match env.child with
    | ChildOutcome.spawnError msg =>
      match cleanupTempFiles keepConfigFile env.rmOk with
      | Except.ok present => (Except.error msg, present)
      | Except.error _ => (Except.error msg, true)
    | ChildOutcome.exited code _ =>
      match cleanupTempFiles keepConfigFile env.rmOk with
      | Except.ok present =>
        if code == some 0 then (Except.ok "CalendarSyncExecutionResult", present)
        else (Except.error "CalendarSyncExecutionError", present)
      | Except.error e =>
        if code == some 0 then (Except.error e, true)
        else (Except.error "CalendarSyncExecutionError", true)

/-! ## Secret bundler
Source: `createAuthStorageFile` and `encryptWithAge` in
`src/lib/calendarsync/executor.ts` (auth-storage module).  File contents are
modelled symbolically so that "plaintext" and "encrypted" are distinguishable
constructors; every disk write, unlink, subprocess argument and stdin line is
recorded in an effect trace. -/
structure AccountTokens where
  calendarId : String
  accessToken : String
  refreshToken : String
  expiresAt : Option Int := none
deriving DecidableEq, Repr

inductive FileContent where
  | plainAuthYaml (accounts : List AccountTokens)
  | ageEncrypted (inner : FileContent)
  | text (s : String)
deriving DecidableEq, Repr

/-- Whether a content value is the external tool's encrypted envelope. -/
def isEncryptedForm : FileContent → Bool
  | FileContent.ageEncrypted _ => true
  | _ => false

structure AgeEffects where
  diskWrites : List (String × FileContent)
  unlinked : List String
  spawnArgs : List String
  stdinFed : List String
deriving DecidableEq, Repr

/-- Models `encryptWithAge(content, passphrase)`: write `content` to a temp input
file, spawn `age --encrypt --passphrase --output <out> <in>`, feed the
passphrase twice on stdin, read the encrypted output on exit 0; the `finally`
block unlinks both temp files on every exit path.  The output file written by
the `age` subprocess is recorded as a disk write as well. -/
def encryptWithAge (content : FileContent) (passphrase : String)
    (tempInputFile tempOutputFile : String) (ageExitCode : Int) :
    Except String FileContent × AgeEffects :=
  let args := ["--encrypt", "--passphrase", "--output", tempOutputFile, tempInputFile]
  if ageExitCode == 0 then
    (Except.ok (FileContent.ageEncrypted content),
     { diskWrites := [(tempInputFile, content),
         (tempOutputFile, FileContent.ageEncrypted content)],
       unlinked := [tempInputFile, tempOutputFile],
       spawnArgs := args,
       stdinFed := [passphrase, passphrase] })
  else
    (Except.error ("age encryption failed with code " ++ toString ageExitCode),
     { diskWrites := [(tempInputFile, content)],
       unlinked := [tempInputFile, tempOutputFile],
       spawnArgs := args,
       stdinFed := [passphrase, passphrase] })

/-- Models `createAuthStorageFile(accounts)`: serialize the decrypted tokens to the
CalendarSync YAML structure and encrypt it with `age` using
`CALENDARSYNC_ENCRYPTION_KEY`. -/
def createAuthStorageFile (accounts : List AccountTokens) (encryptionKey : Option String)
    (tempInputFile tempOutputFile : String) (ageExitCode : Int) :
    Except String FileContent × AgeEffects :=
  match encryptionKey with
  | none =>
    (Except.error "Missing CALENDARSYNC_ENCRYPTION_KEY environment variable. This key is required to encrypt auth storage for CalendarSync CLI.",
     { diskWrites := [], unlinked := [], spawnArgs := [], stdinFed := [] })
  | some key =>
    encryptWithAge (FileContent.plainAuthYaml accounts) key tempInputFile tempOutputFile
      ageExitCode

/-! ## Run log store
Source: `writeRunLog` and `readRunLog` in `src/unnamed/part_011`.  POSIX paths
are modelled as lists of components; `path.resolve` processes `"."`, `".."`
and empty components from the filesystem root (the configured log directory
is an absolute path in the source: it is rooted at `process.cwd()` or taken
from `CALENDARSYNC_LOG_DIR`). -/
/-- One step of path normalization: skip empty and `"."` components, let
`".."` pop the last component (a no-op at the root), and push anything else. -/
def pushComp (stack : List String) (c : String) : List String :=
  if c = "" || c = "." then stack
  else if c = ".." then stack.dropLast
  else stack ++ [c]

/-- Models `s.splitOn "/"` implemented by structural recursion on the character
list (agrees with `String.splitOn` for the single-character separator). -/
def splitCharsOnSlash : List Char → List String
  | [] => [""]
  | c :: rest =>
    let r := splitCharsOnSlash rest
    if c = '/' then "" :: r
    else
      match r with
      | [] => [String.mk [c]]
      | h :: t => String.mk (c :: h.data) :: t

def splitOnSlash (s : String) : List String :=
  splitCharsOnSlash s.data

/-- Models `path.resolve` of one absolute path string. -/
def normAbs (s : String) : List String :=
  (splitOnSlash s).foldl pushComp []

/-- Models `s.startsWith "/"`. -/
def startsWithSlash (s : String) : Bool :=
  match s.data with
  | '/' :: _ => true
  | _ => false

/-- Models `path.resolve(base, rel)` with `base` the configured (absolute) log root:
an absolute `rel` ignores the base. -/
def resolvePath (base rel : String) : List String :=
  if startsWithSlash rel then normAbs rel else normAbs (base ++ "/" ++ rel)

def commonPrefixLen : List String → List String → Nat
  | a :: as, b :: bs => if a = b then commonPrefixLen as bs + 1 else 0
  | _, _ => 0

/-- Models `path.relative(fromP, toP)` on resolved paths: up-levels for the unshared
tail of `fromP`, then the unshared tail of `toP`. -/
def relativeComps (fromP toP : List String) : List String :=
  List.replicate (fromP.length - commonPrefixLen fromP toP) ".." ++
    toP.drop (commonPrefixLen fromP toP)

/-- The `relative(dir, abs).startsWith("..")` check: since components contain
no separator, the joined string starts with `".."` iff its first component
does (`startsWithDotDot` spells out `String.startsWith ".."` on the
character list). -/
def startsWithDotDot (c : String) : Bool :=
  c.data.take 2 == ['.', '.']

def relEscapes (fromP toP : List String) : Bool :=
  ((relativeComps fromP toP).head?.map startsWithDotDot).getD false

/-- Models `path.join(a, b)` restricted to how the store uses it
(`join(jobId, runId + ".log")`); normalization is deferred to `resolve`. -/
def joinPath (a b : String) : String :=
  if a = "" then b else a ++ "/" ++ b

/-- Models `writeRunLog(jobId, runId, content)`: reject resolved paths that escape
the log root, otherwise create the parent directory and write the file.  The
`ok` value carries the returned `relativePath` together with the resolved
absolute path that the single `writeFile` targets; the error branch performs
no filesystem effect (the source throws before `mkdir`/`writeFile`). -/
def writeRunLog (logDirectory jobId runId content : String) :
    Except String (String × List String) :=
  let relativePath := joinPath jobId (runId ++ ".log")
  let absolutePath := resolvePath logDirectory relativePath
  let normalizedDirectory := normAbs logDirectory
  if relEscapes normalizedDirectory absolutePath then
    Except.error "Resolved log path escapes the configured log directory."
  else
    Except.ok (relativePath, absolutePath)

/-- Models `readRunLog(location)`: the same escape check on the read path; the `ok`
value is the resolved absolute path whose content `readFile` returns. -/
def readRunLog (logDirectory location : String) : Except String (List String) :=
  let absolutePath := resolvePath logDirectory location
  let normalizedDirectory := normAbs logDirectory
  if relEscapes normalizedDirectory absolutePath then
    Except.error "Resolved log path escapes the configured log directory."
  else
    Except.ok absolutePath

/-! ## Config builder
Source: `mapToCliFormat` and `buildCliConfig` in `src/unnamed/part_009`
(`yaml-preview`).  Per-job transformer/filter entries carry a `type` tag and
an optional `template`; the builder maps them to the CLI's named entries. -/
structure ConfigItem where
  type : String
  template : Option String := none
deriving DecidableEq, Repr

inductive CliPayload where
  | replaceTitle (newTitle : String)
  | timeFrame (hourStart hourEnd : Int)
deriving DecidableEq, Repr

structure CliEntry where
  name : String
  config : Option CliPayload := none
deriving DecidableEq, Repr

/-- The `typeToName` record: internal type → CLI name. -/
def typeToName : String → Option String
  | "titleTemplateTransformer" => some "ReplaceTitle"
  | "descriptionNoteTransformer" => some "KeepDescription"
  | "timeWindowFilter" => some "TimeFrame"
  | "allDayEventFilter" => some "AllDayEvents"
  | _ => none

/-- JS `item.template || "\x7b\x7btitle\x7d\x7d"`: `||` treats a missing field and
the empty string as falsy. -/
def templateOrDefault (t : Option String) : String :=
  match t with
  | none => "\x7b\x7btitle\x7d\x7d"
  | some "" => "\x7b\x7btitle\x7d\x7d"
  | some v => v

/-- The per-item body of `mapToCliFormat`: known types get their CLI name and
config; anything else falls through to `{ name: typeToName[item.type] || item.type }`. -/
def mapCliItem (item : ConfigItem) : CliEntry :=
  if item.type = "titleTemplateTransformer" then
    { name := "ReplaceTitle",
      config := some (CliPayload.replaceTitle (templateOrDefault item.template)) }
  else if item.type = "descriptionNoteTransformer" then
    { name := "KeepDescription" }
  else if item.type = "timeWindowFilter" then
    { name := "TimeFrame", config := some (CliPayload.timeFrame 0 24) }
  else if item.type = "allDayEventFilter" then
    { name := "AllDayEvents" }
  else
    { name := (typeToName item.type).getD item.type }

/-- Models `mapToCliFormat(items, kind)`; the `kind` argument does not influence the
mapping. -/
def mapToCliFormat (items : List ConfigItem) (kind : String) : List CliEntry :=
  items.map mapCliItem

/-- The claim-relevant shape of the generated document. -/
structure CliConfig where
  transformations : Option (List CliEntry) := none
  filters : Option (List CliEntry) := none
  authStoragePath : String
deriving DecidableEq, Repr

/-- Models `buildCliConfig` restricted to the fields the claim is about: the
`transformations`/`filters` blocks are added only when nonempty, the auth
storage path defaults, and the Google OAuth environment variables are
required. -/
def buildCliConfig (transformers filters : List ConfigItem)
    (googleClientId googleClientSecret : Option String)
    (authStoragePath : Option String) : Except String CliConfig :=
  let transformations := mapToCliFormat transformers "transformation"
  let cliFilters := mapToCliFormat filters "filter"
  match googleClientId, googleClientSecret with
  | some _, some _ =>
    Except.ok
      { transformations := if transformations.length > 0 then some transformations else none,
        filters := if cliFilters.length > 0 then some cliFilters else none,
        authStoragePath := authStoragePath.getD "./auth-storage.yaml" }
  | _, _ =>
    Except.error "Missing GOOGLE_CLIENT_ID or GOOGLE_CLIENT_SECRET environment variables. These are required for CalendarSync CLI."

/-! ## Witnesses: the claim theorems applied at concrete inputs -/
def c3job : SyncJob :=
  { id := 5, cadence := SyncJobCadence.DAILY, status := SyncJobStatus.ACTIVE,
    nextRunAt := some 0 }

def c3db : Db := { jobs := [c3job], runs := [], nextRunId := 0 }

def c4run : JobRun := { id := 1, jobId := 2, status := JobRunStatus.PENDING, createdAt := 0 }

def c4db : Db := { jobs := [], runs := [c4run], nextRunId := 2 }

def c10run : JobRun :=
  { id := 3, jobId := 7, status := JobRunStatus.RUNNING, createdAt := 0, startedAt := some 1 }

def c10job : SyncJob := { id := 7, cadence := SyncJobCadence.DAILY, status := SyncJobStatus.ACTIVE }

def c10db : Db := { jobs := [c10job], runs := [c10run], nextRunId := 4 }

def c10env : ExecEnv :=
  { sourceAuthStorage := some "enc-bundle", destAuthStorage := none,
    outcome := SyncOutcome.success "" "" 0 42, writeLogOk := true, finishTime := 99 }

/-! ## Theorems -/

theorem cadenceMs_pos (c : SyncJobCadence) : 0 < cadenceMs c := by
  cases c <;> simp [cadenceMs]

theorem catchUp_gt (cadence : SyncJobCadence) (now candidate : Int) :
    now < catchUp cadence now candidate := by
  rw [catchUp]
  split
  · exact catchUp_gt cadence now _
  · omega
termination_by (now + 1 - candidate).toNat
decreasing_by
  have := cadenceMs_pos cadence
  simp only [addCadenceInterval]
  omega

theorem catchUp_exists_mul (cadence : SyncJobCadence) (now candidate : Int) :
    ∃ m : Nat, catchUp cadence now candidate = candidate + m * cadenceMs cadence := by
  rw [catchUp]
  split
  · obtain ⟨m, hm⟩ := catchUp_exists_mul cadence now (addCadenceInterval candidate cadence)
    refine ⟨m + 1, ?_⟩
    rw [hm]
    simp only [addCadenceInterval]
    push_cast
    ring
  · exact ⟨0, by simp⟩
termination_by (now + 1 - candidate).toNat
decreasing_by
  have := cadenceMs_pos cadence
  simp only [addCadenceInterval]
  omega

/-- The loop result is the least value of the form `candidate + m * interval`
(`m ≥ 0`) that is strictly beyond `now`: whenever the loop takes a step, the
value one interval below the result was `≤ now`. -/
theorem catchUp_least (cadence : SyncJobCadence) (now candidate : Int) :
    catchUp cadence now candidate = candidate ∨
      catchUp cadence now candidate - cadenceMs cadence ≤ now := by
  rw [catchUp]
  split
  · rcases catchUp_least cadence now (addCadenceInterval candidate cadence) with h | h
    · right
      rw [h]
      simp only [addCadenceInterval]
      omega
    · right
      exact h
  · left
    rfl
termination_by (now + 1 - candidate).toNat
decreasing_by
  have := cadenceMs_pos cadence
  simp only [addCadenceInterval]
  omega

/-- Unfolded characterisation of `calculateNextRunAt`: the result is
`base + k * interval` for some whole `k ≥ 1`, is strictly in the future, and
is the least such multiple beyond `now`. -/
theorem calculateNextRunAt_spec (cadence : SyncJobCadence)
    (previousNextRunAt : Option Int) (now : Int) :
    let base := previousNextRunAt.getD now
    let v := calculateNextRunAt cadence previousNextRunAt now
    now < v ∧
      (∃ k : Nat, 1 ≤ k ∧ v = base + k * cadenceMs cadence) ∧
      (∀ m : Nat, 1 ≤ m → now < base + m * cadenceMs cadence →
        v ≤ base + m * cadenceMs cadence) := by
  intro base v
  have hpos := cadenceMs_pos cadence
  have hgt : now < v := catchUp_gt cadence now (addCadenceInterval base cadence)
  obtain ⟨m, hm⟩ := catchUp_exists_mul cadence now (addCadenceInterval base cadence)
  have hv : v = base + (m + 1) * cadenceMs cadence := by
    show catchUp cadence now (addCadenceInterval base cadence) = _
    rw [hm]
    simp only [addCadenceInterval]
    push_cast
    ring
  refine ⟨hgt, ⟨m + 1, by omega, hv⟩, ?_⟩
  intro m' hm' hnow
  rcases catchUp_least cadence now (addCadenceInterval base cadence) with h | h
  · have : v = base + cadenceMs cadence := by
      show catchUp cadence now (addCadenceInterval base cadence) = _
      rw [h]
      rfl
    rw [this]
    have : (1 : Int) ≤ (m' : Int) := by exact_mod_cast hm'
    nlinarith
  · -- v - interval ≤ now < base + m' * interval, and v = base + (m+1) * interval,
    -- so base + m * interval ≤ now, hence m < m', hence v ≤ base + m' * interval.
    have hvle : base + (m : Int) * cadenceMs cadence ≤ now := by
      have heq : v - cadenceMs cadence = base + (m : Int) * cadenceMs cadence := by
        rw [hv]; push_cast; ring
      rw [← heq]
      exact h
    have hmlt : (m : Int) < (m' : Int) := by
      by_contra hcon
      push_neg at hcon
      have : base + (m' : Int) * cadenceMs cadence ≤ base + (m : Int) * cadenceMs cadence := by
        nlinarith
      omega
    have : (m : Int) + 1 ≤ (m' : Int) := by omega
    rw [hv]
    push_cast
    nlinarith

/-! ### List helper lemmas shared by the scheduler and executor proofs -/
theorem find?_map_comm {α : Type} (p : α → Bool) (g : α → α) (l : List α)
    (hp : ∀ x, p (g x) = p x) :
    (l.map g).find? p = (l.find? p).map g := by
  induction l with
  | nil => simp
  | cons a l ih =>
    by_cases ha : p a = true
    · rw [List.map_cons, List.find?_cons_of_pos _ (by rw [hp]; exact ha),
        List.find?_cons_of_pos _ ha]
      rfl
    · rw [List.map_cons, List.find?_cons_of_neg _ (by rw [hp]; simpa using ha),
        List.find?_cons_of_neg _ (by simpa using ha), ih]

theorem find?_beq_id (db : Db) (jid : Nat) (j : SyncJob)
    (h : findJob db jid = some j) : j.id = jid ∧ j ∈ db.jobs := by
  refine ⟨?_, List.mem_of_find?_eq_some h⟩
  have := List.find?_some h
  simpa using this

/-- A transaction for a different job id leaves job `jid`'s row and runs
untouched. -/
theorem enqueueSyncJobTx_other (now : Int) (db : Db) (tid jid : Nat)
    (hne : tid ≠ jid) :
    findJob (enqueueSyncJobTx now db tid).1 jid = findJob db jid ∧
    runsForJob (enqueueSyncJobTx now db tid).1 jid = runsForJob db jid := by
  unfold enqueueSyncJobTx
  cases hfind : db.jobs.find? (fun j => j.id == tid) with
  | none => exact ⟨rfl, rfl⟩
  | some job =>
    have hjob : job.id = tid := by simpa using List.find?_some hfind
    dsimp only
    by_cases hstat : job.status ≠ SyncJobStatus.ACTIVE
    · rw [if_pos hstat]
      exact ⟨rfl, rfl⟩
    · rw [if_neg hstat]
      by_cases hdue : (match job.nextRunAt with
          | some t => decide (now < t)
          | none => false) = true
      · rw [if_pos hdue]
        exact ⟨rfl, rfl⟩
      · rw [if_neg hdue]
        constructor
        · unfold findJob
          dsimp only
          rw [find?_map_comm (fun j => j.id == jid) _ db.jobs (by
            intro x
            by_cases hx : x.id == job.id <;> simp [hx])]
          cases hf : db.jobs.find? (fun j => j.id == jid) with
          | none => rfl
          | some j =>
            have hjid : j.id = jid := by simpa using List.find?_some hf
            have hfalse : (j.id == job.id) = false := by
              simp [hjid, hjob]
              omega
            simp [hfalse]
            intro h
            omega
        · unfold runsForJob
          dsimp only
          rw [List.filter_append]
          have hne' : (job.id == jid) = false := by
            simp [hjob]
            omega
          simp [List.filter, hne']

/-- Folding the enqueue loop over ids not containing `jid` leaves job `jid`'s
row and runs untouched. -/
theorem enqueueFold_other (now : Int) (ids : List Nat) (jid : Nat)
    (h : jid ∉ ids) :
    ∀ acc : Db × Nat,
      findJob (ids.foldl (enqueueStep now) acc).1 jid = findJob acc.1 jid ∧
      runsForJob (ids.foldl (enqueueStep now) acc).1 jid = runsForJob acc.1 jid := by
  induction ids with
  | nil => intro acc; exact ⟨rfl, rfl⟩
  | cons a ids ih =>
    intro acc
    have hane : a ≠ jid := fun hc => h (hc ▸ List.mem_cons_self a ids)
    have hrest : jid ∉ ids := fun hc => h (List.mem_cons_of_mem a hc)
    rw [List.foldl_cons]
    obtain ⟨h1, h2⟩ := ih hrest (enqueueStep now acc a)
    obtain ⟨h3, h4⟩ := enqueueSyncJobTx_other now acc.1 a jid hane
    exact ⟨h1.trans h3, h2.trans h4⟩

/-- The transaction for an ACTIVE, still-due job enqueues exactly one PENDING
run and advances that job's `nextRunAt` to `calculateNextRunAt`. -/
theorem enqueueSyncJobTx_self (now : Int) (db : Db) (j : SyncJob)
    (hfind : findJob db j.id = some j)
    (hact : j.status = SyncJobStatus.ACTIVE) (hdue : isDue now j = true) :
    (enqueueSyncJobTx now db j.id).2 = true ∧
    findJob (enqueueSyncJobTx now db j.id).1 j.id =
      some { j with nextRunAt := some (calculateNextRunAt j.cadence j.nextRunAt now) } ∧
    runsForJob (enqueueSyncJobTx now db j.id).1 j.id =
      runsForJob db j.id ++ [newPendingRun db.nextRunId j.id now] := by
  have hstatus : ¬ (j.status ≠ SyncJobStatus.ACTIVE) := by simp [hact]
  have hdue' : ¬ ((match j.nextRunAt with
      | some t => decide (now < t)
      | none => false) = true) := by
    unfold isDue at hdue
    cases hnr : j.nextRunAt with
    | none => simp
    | some t =>
      rw [hnr] at hdue
      simp at hdue ⊢
      omega
  unfold enqueueSyncJobTx
  rw [show db.jobs.find? (fun x => x.id == j.id) = some j from hfind]
  dsimp only
  rw [if_neg hstatus, if_neg hdue']
  refine ⟨rfl, ?_, ?_⟩
  · unfold findJob
    dsimp only
    rw [find?_map_comm (fun x => x.id == j.id) _ db.jobs (by
      intro x
      by_cases hx : x.id == j.id <;> simp [hx])]
    rw [show db.jobs.find? (fun x => x.id == j.id) = some j from hfind]
    simp
  · unfold runsForJob
    dsimp only
    rw [List.filter_append]
    simp [newPendingRun, List.filter]

/-- C3: one call to `enqueueDueSyncJobs` creates exactly one new PENDING run
for each due ACTIVE job and advances its `nextRunAt` to the first strictly
future cadence slot. -/
theorem enqueueDueSyncJobs_one_run_per_due_job (now : Int) (db : Db) (j : SyncJob)
    (hnd : (db.jobs.map (fun x => x.id)).Nodup)
    (hfind : findJob db j.id = some j)
    (hact : j.status = SyncJobStatus.ACTIVE)
    (hdue : isDue now j = true) :
    (∃ rid, runsForJob (enqueueDueSyncJobs now db).1 j.id =
        runsForJob db j.id ++ [newPendingRun rid j.id now]) ∧
    findJob (enqueueDueSyncJobs now db).1 j.id =
      some { j with nextRunAt := some (calculateNextRunAt j.cadence j.nextRunAt now) } ∧
    now < calculateNextRunAt j.cadence j.nextRunAt now ∧
    (∃ k : Nat, 1 ≤ k ∧ calculateNextRunAt j.cadence j.nextRunAt now =
        j.nextRunAt.getD now + k * cadenceMs j.cadence) ∧
    (∀ m : Nat, 1 ≤ m → now < j.nextRunAt.getD now + m * cadenceMs j.cadence →
        calculateNextRunAt j.cadence j.nextRunAt now ≤
          j.nextRunAt.getD now + m * cadenceMs j.cadence) := by
  obtain ⟨-, hmem⟩ := find?_beq_id db j.id j hfind
  have hq : (fun x => x.status == SyncJobStatus.ACTIVE && isDue now x) j = true := by
    simp [hact, hdue]
  have hmemf : j ∈ db.jobs.filter (fun x => x.status == SyncJobStatus.ACTIVE && isDue now x) :=
    List.mem_filter.mpr ⟨hmem, hq⟩
  have hmemd : j.id ∈ (db.jobs.filter
      (fun x => x.status == SyncJobStatus.ACTIVE && isDue now x)).map (fun x => x.id) :=
    List.mem_map_of_mem (fun x => x.id) hmemf
  have hnodup_due : ((db.jobs.filter
      (fun x => x.status == SyncJobStatus.ACTIVE && isDue now x)).map (fun x => x.id)).Nodup := by
    refine List.Nodup.sublist ?_ hnd
    exact List.Sublist.map (fun x => x.id) (List.filter_sublist db.jobs)
  obtain ⟨s, t, hst⟩ := List.append_of_mem hmemd
  rw [hst] at hnodup_due
  have hs : j.id ∉ s := by
    intro hin
    have hdisj := List.disjoint_of_nodup_append hnodup_due
    exact hdisj hin (List.mem_cons_self _ _)
  have ht : j.id ∉ t := by
    have := (List.nodup_cons.mp (List.Nodup.of_append_right hnodup_due)).1
    exact this
  have heval : enqueueDueSyncJobs now db =
      ((db.jobs.filter (fun x => x.status == SyncJobStatus.ACTIVE && isDue now x)).map
        (fun x => x.id)).foldl (enqueueStep now) (db, 0) := rfl
  rw [heval, hst, List.foldl_append, List.foldl_cons]
  set acc1 := s.foldl (enqueueStep now) (db, 0) with hacc1
  obtain ⟨hf1, hr1⟩ := enqueueFold_other now s j.id hs (db, 0)
  have hfind1 : findJob acc1.1 j.id = some j := by rw [hf1]; exact hfind
  obtain ⟨-, hf2, hr2⟩ := enqueueSyncJobTx_self now acc1.1 j hfind1 hact hdue
  obtain ⟨hf3, hr3⟩ := enqueueFold_other now t j.id ht (enqueueStep now acc1 j.id)
  have hstep1 : (enqueueStep now acc1 j.id).1 = (enqueueSyncJobTx now acc1.1 j.id).1 := rfl
  refine ⟨⟨acc1.1.nextRunId, ?_⟩, ?_, ?_⟩
  · rw [hr3, hstep1, hr2, hr1]
  · rw [hf3, hstep1, hf2]
  · have hspec := calculateNextRunAt_spec j.cadence j.nextRunAt now
    simpa using hspec

/-- C1 (falsified by the code): tick at t=0 enqueues one PENDING run for job 1
and sets `nextRunAt` to t=1h; with no executor pass in between, the tick at
t=1h finds the job due again and enqueues a second PENDING run even though the
first is still outstanding.  After the second tick, two runs of job 1 are in
{PENDING, RUNNING} simultaneously. -/
theorem c1_second_pending_run_created :
    ((runsForJob (enqueueDueSyncJobs 0 schedDb0).1 1).filter outstanding).length = 1 ∧
    ((runsForJob (enqueueDueSyncJobs 3600000 (enqueueDueSyncJobs 0 schedDb0).1).1 1).filter
      outstanding).length = 2 := by
  have h1 : calculateNextRunAt SyncJobCadence.HOURLY none 0 = 3600000 := by
    rw [calculateNextRunAt, catchUp]
    norm_num [addCadenceInterval, cadenceMs, Option.getD]
  have h2 : calculateNextRunAt SyncJobCadence.HOURLY (some 3600000) 3600000 = 7200000 := by
    rw [calculateNextRunAt, catchUp]
    norm_num [addCadenceInterval, cadenceMs, Option.getD]
  constructor <;>
    simp [schedDb0, schedJob1, enqueueDueSyncJobs, enqueueStep, enqueueSyncJobTx, isDue,
      findJob, runsForJob, outstanding, List.filter, h1, h2]

theorem earliestByCreatedAt_mem (l : List JobRun) (r : JobRun)
    (h : earliestByCreatedAt l = some r) : r ∈ l := by
  induction l with
  | nil => simp [earliestByCreatedAt] at h
  | cons a l ih =>
    rw [earliestByCreatedAt] at h
    cases he : earliestByCreatedAt l with
    | none =>
      rw [he] at h
      dsimp only at h
      simp at h
      simp [h]
    | some m =>
      rw [he] at h
      dsimp only at h
      split at h
      · simp at h
        simp [h]
      · simp at h
        exact List.mem_cons_of_mem a (ih (h ▸ he))

theorem findFirstPending_spec (db : Db) (r : JobRun)
    (h : findFirstPending db = some r) :
    r ∈ db.runs ∧ r.status = JobRunStatus.PENDING := by
  have hm := earliestByCreatedAt_mem _ _ h
  have := List.mem_filter.mp hm
  refine ⟨this.1, by simpa using this.2⟩

/-- Under unique run ids, a predicate satisfied by `r` and forcing `r`'s id
selects exactly `[r]`. -/
theorem filter_eq_single_of_nodup (runs : List JobRun) (r : JobRun)
    (hnd : (runs.map (fun x => x.id)).Nodup) (hmem : r ∈ runs)
    (p : JobRun → Bool) (hp : p r = true) (hid : ∀ x, p x = true → x.id = r.id) :
    runs.filter p = [r] := by
  induction runs with
  | nil => simp at hmem
  | cons a l ih =>
    rw [List.map_cons, List.nodup_cons] at hnd
    rcases List.mem_cons.mp hmem with rfl | hmem'
    · rw [List.filter_cons_of_pos hp]
      have hnil : l.filter p = [] := by
        rw [List.filter_eq_nil_iff]
        intro x hx hpx
        have hidx : x.id = r.id := hid x hpx
        exact hnd.1 (hidx ▸ List.mem_map_of_mem (fun y => y.id) hx)
      rw [hnil]
    · have hpa : ¬ p a = true := by
        intro hcon
        have hida : a.id = r.id := hid a hcon
        exact hnd.1 (hida ▸ List.mem_map_of_mem (fun y => y.id) hmem')
      rw [List.filter_cons_of_neg hpa]
      exact ih hnd.2 hmem'

theorem filter_map_comm (p : JobRun → Bool) (g : JobRun → JobRun) (l : List JobRun)
    (hp : ∀ x, p (g x) = p x) : (l.map g).filter p = (l.filter p).map g := by
  induction l with
  | nil => simp
  | cons a l ih =>
    by_cases ha : p a = true
    · rw [List.map_cons, List.filter_cons_of_pos (by rw [hp]; exact ha),
        List.filter_cons_of_pos ha, List.map_cons, ih]
    · rw [List.map_cons, List.filter_cons_of_neg (by rw [hp]; exact ha),
        List.filter_cons_of_neg ha, ih]

/-- C4: the conditional PENDING→RUNNING transition succeeds only while the row
is PENDING; of two claim attempts on the same PENDING run (serialized by the
Serializable transactions), the first affects exactly one row, the second
affects zero rows, and the loser re-polls and never obtains that run again. -/
theorem claim_race_single_transition (db : Db) (r : JobRun) (t1 t2 : Int)
    (hnd : (db.runs.map (fun x => x.id)).Nodup)
    (hmem : r ∈ db.runs) (hpend : r.status = JobRunStatus.PENDING) :
    (updateManyClaim db r.id t1).2 = 1 ∧
    (updateManyClaim db r.id t1).1.runs.filter (fun x => x.id == r.id) =
      [{ r with status := JobRunStatus.RUNNING, startedAt := some t1 }] ∧
    (updateManyClaim (updateManyClaim db r.id t1).1 r.id t2).2 = 0 ∧
    (∀ run', (claimNextPendingRun (updateManyClaim db r.id t1).1 t2).2 = some run' →
      run'.id ≠ r.id) := by
  have hpr : (fun x => x.id == r.id && x.status == JobRunStatus.PENDING) r = true := by
    simp [hpend]
  have hfilter : db.runs.filter (fun x => x.id == r.id && x.status == JobRunStatus.PENDING)
      = [r] :=
    filter_eq_single_of_nodup db.runs r hnd hmem _ hpr (by
      intro x hx
      simp at hx
      exact hx.1)
  have hcount1 : (updateManyClaim db r.id t1).2 = 1 := by
    show (db.runs.filter _).length = 1
    rw [hfilter]
    rfl
  have hgid : ∀ x : JobRun,
      ((if x.id == r.id && x.status == JobRunStatus.PENDING
        then { x with status := JobRunStatus.RUNNING, startedAt := some t1 }
        else x) : JobRun).id = x.id := by
    intro x
    by_cases hx : (x.id == r.id && x.status == JobRunStatus.PENDING) = true
    · rw [if_pos hx]
    · rw [if_neg hx]
  have hrow : (updateManyClaim db r.id t1).1.runs.filter (fun x => x.id == r.id) =
      [{ r with status := JobRunStatus.RUNNING, startedAt := some t1 }] := by
    unfold updateManyClaim
    dsimp only
    rw [filter_map_comm (fun x => x.id == r.id) _ db.runs (by
      intro x
      dsimp only
      rw [hgid x])]
    have hfid : db.runs.filter (fun x => x.id == r.id) = [r] :=
      filter_eq_single_of_nodup db.runs r hnd hmem _ (by simp) (by
        intro x hx
        simpa using hx)
    rw [hfid, List.map_cons, List.map_nil, if_pos hpr]
  have hmap : ∀ x ∈ (updateManyClaim db r.id t1).1.runs,
      ¬ ((x.id == r.id && x.status == JobRunStatus.PENDING) = true) := by
    intro x hx
    obtain ⟨y, hy, rfl⟩ := List.mem_map.mp hx
    by_cases hpy : (y.id == r.id && y.status == JobRunStatus.PENDING) = true
    · rw [if_pos hpy]
      simp
    · rw [if_neg hpy]
      exact hpy
  have hcount2 : (updateManyClaim (updateManyClaim db r.id t1).1 r.id t2).2 = 0 := by
    show ((updateManyClaim db r.id t1).1.runs.filter _).length = 0
    rw [List.filter_eq_nil_iff.mpr hmap]
    rfl
  refine ⟨hcount1, hrow, hcount2, ?_⟩
  intro run' hsome
  unfold claimNextPendingRun at hsome
  cases hff : findFirstPending (updateManyClaim db r.id t1).1 with
  | none =>
    rw [hff] at hsome
    simp at hsome
  | some run2 =>
    rw [hff] at hsome
    dsimp only at hsome
    obtain ⟨hmem2, hpend2⟩ := findFirstPending_spec _ _ hff
    have hid2 : run2.id ≠ r.id := by
      intro hideq
      obtain ⟨y, hy, hgy⟩ := List.mem_map.mp hmem2
      by_cases hpy : (y.id == r.id && y.status == JobRunStatus.PENDING) = true
      · rw [if_pos hpy] at hgy
        rw [← hgy] at hpend2
        simp at hpend2
      · rw [if_neg hpy] at hgy
        have hyr : y = r := by
          refine List.inj_on_of_nodup_map hnd hy hmem ?_
          rw [hgy, hideq]
        rw [hyr] at hpy
        exact hpy hpr
    split at hsome
    · simp at hsome
    · simp at hsome
      rw [← hsome]
      exact hid2

/-- C10: every processed run ends in exactly one of SUCCESS/FAILED (never
CANCELLED), with `finishedAt` set, and the owning job's `lastRunAt` set to the
same finish timestamp in the same transaction. -/
theorem executeRun_terminal_states (env : ExecEnv) (db : Db) (run r : JobRun) (j : SyncJob)
    (hfr : db.runs.find? (fun x => x.id == run.id) = some r)
    (hfj : findJob db run.jobId = some j) :
    ∃ r' j',
      (executeRun env db run).1.runs.find? (fun x => x.id == run.id) = some r' ∧
      findJob (executeRun env db run).1 run.jobId = some j' ∧
      (r'.status = JobRunStatus.SUCCESS ∨ r'.status = JobRunStatus.FAILED) ∧
      r'.status ≠ JobRunStatus.CANCELLED ∧
      r'.finishedAt = some env.finishTime ∧
      j'.lastRunAt = some env.finishTime ∧
      (r'.status = if (executeRun env db run).2 then JobRunStatus.SUCCESS
        else JobRunStatus.FAILED) := by
  have hridr : (r.id == run.id) = true := by simpa using List.find?_some hfr
  have hjidr : (j.id == run.jobId) = true := by
    have := List.find?_some hfj
    simpa using this
  have hfr' : (executeRun env db run).1.runs.find? (fun x => x.id == run.id) =
      some (if r.id == run.id then
        { r with
          status := if (executeRunAttempt env).1 then JobRunStatus.SUCCESS
            else JobRunStatus.FAILED,
          finishedAt := some env.finishTime,
          message := (executeRunAttempt env).2,
          logLocation := if env.writeLogOk
            then some (toString run.jobId ++ "/" ++ toString run.id ++ ".log")
            else none }
        else r) := by
    unfold executeRun
    dsimp only
    rw [find?_map_comm (fun x => x.id == run.id) _ db.runs (by
      intro x
      dsimp only
      by_cases hx : (x.id == run.id) = true
      · rw [if_pos hx]
      · rw [if_neg hx])]
    rw [hfr]
    rfl
  have hfj' : findJob (executeRun env db run).1 run.jobId =
      some (if j.id == run.jobId then { j with lastRunAt := some env.finishTime } else j) := by
    unfold executeRun findJob
    dsimp only
    rw [find?_map_comm (fun x => x.id == run.jobId) _ db.jobs (by
      intro x
      dsimp only
      by_cases hx : (x.id == run.jobId) = true
      · rw [if_pos hx]
      · rw [if_neg hx])]
    rw [show db.jobs.find? (fun x => x.id == run.jobId) = some j from hfj]
    rfl
  rw [if_pos hridr] at hfr'
  rw [if_pos hjidr] at hfj'
  refine ⟨_, _, hfr', hfj', ?_, ?_, rfl, rfl, ?_⟩
  · cases hs : (executeRunAttempt env).1
    · right
      simp [hs]
    · left
      simp [hs]
  · cases hs : (executeRunAttempt env).1 <;> simp [hs]
  · show (if (executeRunAttempt env).1 then JobRunStatus.SUCCESS else JobRunStatus.FAILED) = _
    rfl

/-- C8 counterexample: an exception raised by the claim call propagates out of
`processPendingJobRuns` (there is no try/catch around `claimNextPendingRun`),
aborting the whole batch instead of continuing with the next candidate. -/
theorem c8_claim_exception_escapes :
    processPendingJobRuns
      [(ClaimCallResult.exn "database connection lost", RunExecResult.done true),
       (ClaimCallResult.found 7, RunExecResult.done true)]
      { processed := 0, succeeded := 0, failed := 0 } =
      Except.error "database connection lost" := rfl

/-- C8 (amended): exceptions thrown by `executeRun` are caught and counted as
failures, so a batch whose claim calls all return normally always completes
with totals; but an exception from the claim call itself is returned as an
error from `processPendingJobRuns`. -/
theorem processPendingJobRuns_exception_policy :
    (∀ script acc, (∀ p ∈ script, isClaimExn p.1 = false) →
      ∃ totals, processPendingJobRuns script acc = Except.ok totals) ∧
    (∀ msg e rest acc,
      processPendingJobRuns ((ClaimCallResult.exn msg, e) :: rest) acc =
        Except.error msg) := by
  constructor
  · intro script
    induction script with
    | nil =>
      intro acc h
      exact ⟨acc, rfl⟩
    | cons p rest ih =>
      intro acc h
      obtain ⟨c, e⟩ := p
      have hc := h (c, e) (List.mem_cons_self _ _)
      cases c with
      | exn msg => exact absurd hc (by simp [isClaimExn])
      | empty => exact ⟨acc, rfl⟩
      | found rid =>
        have hrest : ∀ p ∈ rest, isClaimExn p.1 = false :=
          fun p hp => h p (List.mem_cons_of_mem _ hp)
        cases e with
        | exn m => exact ih _ hrest
        | done b => cases b <;> exact ih _ hrest
  · intro msg e rest acc
    rfl

/-- C5 counterexample: with retention not requested, a failure writing the
config file into the freshly created scratch directory makes `runCalendarSync`
throw while the scratch directory is left behind. -/
theorem c5_config_write_failure_leaks_scratch_dir :
    runCalendarSync
      { binaryOk := true, mkdtempOk := true, writeFileOk := false,
        child := ChildOutcome.exited (some 0) none, rmOk := true } false =
      (Except.error "writeFile failed", true) := rfl

/-- C5 (amended): once the config file has been written and `rm` succeeds, the
scratch directory is absent after the call returns on every exit path —
success, non-zero exit, spawn error, and cancellation (close with a signal) —
when retention is not requested; with retention requested the directory is
kept whenever it was created. -/
theorem runCalendarSync_cleanup (env : RunnerEnv)
    (hw : env.writeFileOk = true) (hrm : env.rmOk = true) :
    (runCalendarSync env false).2 = false ∧
    (env.binaryOk = true → env.mkdtempOk = true → (runCalendarSync env true).2 = true) := by
  obtain ⟨b, m, w, c, rm⟩ := env
  simp only at hw hrm
  subst hw hrm
  cases b <;> cases m <;>
    cases c with
    | spawnError msg => simp [runCalendarSync, cleanupTempFiles]
    | exited code sig =>
      simp only [runCalendarSync, cleanupTempFiles, Bool.not_true, Bool.not_false]
      constructor
      · by_cases hc : (code == some 0) = true <;> simp [hc]
      · intro h1 h2
        first
          | exact absurd h1 (by decide)
          | exact absurd h2 (by decide)
          | by_cases hc : (code == some 0) = true <;> simp [hc]

/-- C7 counterexample: during secret-bundle creation the plaintext token YAML
is written to the `age` input scratch file on disk — a value that is not one
of the two encrypted forms. -/
theorem c7_plaintext_written_to_scratch_file :
    ∃ w ∈ (createAuthStorageFile
      [{ calendarId := "primary", accessToken := "access-token-secret",
         refreshToken := "refresh-token-secret" }]
      (some "passphrase-1") "/tmp/age-input-x.txt" "/tmp/age-output-x.age" 0).2.diskWrites,
      isEncryptedForm w.2 = false := by
  refine ⟨("/tmp/age-input-x.txt",
    FileContent.plainAuthYaml
      [{ calendarId := "primary", accessToken := "access-token-secret",
         refreshToken := "refresh-token-secret" }]), ?_, rfl⟩
  simp [createAuthStorageFile, encryptWithAge]

/-- C7 (amended): the only plaintext value `createAuthStorageFile` puts on
disk is the `age` input scratch file, which is unlinked on every exit path;
the passphrase reaches the subprocess only via stdin (the argument vector is
a fixed list that does not contain it), and the value handed back for stable
storage is always the encrypted envelope. -/
theorem createAuthStorageFile_secret_handling (accounts : List AccountTokens)
    (key tempInputFile tempOutputFile : String) (ageExitCode : Int) :
    (createAuthStorageFile accounts (some key) tempInputFile tempOutputFile
        ageExitCode).2.spawnArgs =
      ["--encrypt", "--passphrase", "--output", tempOutputFile, tempInputFile] ∧
    (createAuthStorageFile accounts (some key) tempInputFile tempOutputFile
        ageExitCode).2.stdinFed = [key, key] ∧
    (∀ w ∈ (createAuthStorageFile accounts (some key) tempInputFile tempOutputFile
        ageExitCode).2.diskWrites,
      isEncryptedForm w.2 = false →
        w.1 = tempInputFile ∧ w.2 = FileContent.plainAuthYaml accounts) ∧
    tempInputFile ∈ (createAuthStorageFile accounts (some key) tempInputFile
        tempOutputFile ageExitCode).2.unlinked ∧
    tempOutputFile ∈ (createAuthStorageFile accounts (some key) tempInputFile
        tempOutputFile ageExitCode).2.unlinked ∧
    (∀ enc, (createAuthStorageFile accounts (some key) tempInputFile tempOutputFile
        ageExitCode).1 = Except.ok enc → isEncryptedForm enc = true) := by
  unfold createAuthStorageFile encryptWithAge
  dsimp only
  by_cases hc : (ageExitCode == 0) = true
  · rw [if_pos hc]
    refine ⟨rfl, rfl, ?_, by simp, by simp, ?_⟩
    · intro w hw hplain
      simp at hw
      rcases hw with rfl | rfl
      · exact ⟨rfl, rfl⟩
      · simp [isEncryptedForm] at hplain
    · intro enc henc
      simp at henc
      rw [← henc]
      rfl
  · rw [if_neg hc]
    refine ⟨rfl, rfl, ?_, by simp, by simp, ?_⟩
    · intro w hw hplain
      simp at hw
      subst hw
      exact ⟨rfl, rfl⟩
    · intro enc henc
      simp at henc

theorem commonPrefixLen_le_left (a b : List String) :
    commonPrefixLen a b ≤ a.length := by
  induction a generalizing b with
  | nil => simp [commonPrefixLen]
  | cons x xs ih =>
    cases b with
    | nil => simp [commonPrefixLen]
    | cons y ys =>
      rw [commonPrefixLen]
      by_cases hxy : x = y
      · rw [if_pos hxy, List.length_cons]
        exact Nat.succ_le_succ (ih ys)
      · rw [if_neg hxy]
        exact Nat.zero_le _

theorem commonPrefixLen_full (a b : List String)
    (h : commonPrefixLen a b = a.length) : a <+: b := by
  induction a generalizing b with
  | nil => exact List.nil_prefix
  | cons x xs ih =>
    cases b with
    | nil => simp [commonPrefixLen] at h
    | cons y ys =>
      rw [commonPrefixLen] at h
      by_cases hxy : x = y
      · rw [if_pos hxy] at h
        rw [List.length_cons] at h
        have := ih ys (Nat.succ_injective h)
        rw [hxy]
        exact (List.prefix_cons_inj y).mpr this
      · rw [if_neg hxy] at h
        simp at h

/-- Soundness of the escape check: if `relative(fromP, toP)` does not start
with `".."`, then `toP` lies inside `fromP`. -/
theorem relEscapes_false_prefix (fromP toP : List String)
    (h : relEscapes fromP toP = false) : fromP <+: toP := by
  have hk := commonPrefixLen_le_left fromP toP
  by_cases hlen : commonPrefixLen fromP toP = fromP.length
  · exact commonPrefixLen_full fromP toP hlen
  · exfalso
    have hlt : commonPrefixLen fromP toP < fromP.length := Nat.lt_of_le_of_ne hk hlen
    have hpos : 0 < fromP.length - commonPrefixLen fromP toP := Nat.sub_pos_of_lt hlt
    obtain ⟨n, hn⟩ : ∃ n, fromP.length - commonPrefixLen fromP toP = n + 1 :=
      ⟨fromP.length - commonPrefixLen fromP toP - 1, by omega⟩
    have hrc : relativeComps fromP toP =
        ".." :: (List.replicate n ".." ++ toP.drop (commonPrefixLen fromP toP)) := by
      unfold relativeComps
      rw [hn, List.replicate_succ, List.cons_append]
    unfold relEscapes at h
    rw [hrc] at h
    simp [startsWithDotDot] at h

/-- C6: every write or read the run log store accepts resolves to a path
inside the configured root: if the escape check passes, the normalized root is
a prefix of the resolved absolute path; rejected calls throw before any
filesystem effect. -/
theorem runLog_paths_stay_inside_root (logDirectory jobId runId content location : String) :
    (∀ rel abs, writeRunLog logDirectory jobId runId content = Except.ok (rel, abs) →
      normAbs logDirectory <+: abs) ∧
    (∀ abs, readRunLog logDirectory location = Except.ok abs →
      normAbs logDirectory <+: abs) := by
  constructor
  · intro rel abs h
    rw [writeRunLog] at h
    split at h
    · exact absurd h (by simp)
    · rename_i hesc
      simp only [Except.ok.injEq, Prod.mk.injEq] at h
      rw [← h.2]
      exact relEscapes_false_prefix _ _ (Bool.not_eq_true _ ▸ eq_false_of_ne_true hesc)
  · intro abs h
    rw [readRunLog] at h
    split at h
    · exact absurd h (by simp)
    · rename_i hesc
      simp only [Except.ok.injEq] at h
      rw [← h]
      exact relEscapes_false_prefix _ _ (eq_false_of_ne_true hesc)

/-- C9 counterexample: an entry whose type is not a known option id is not
omitted — it appears in the generated document as `{ name: <type> }`. -/
theorem c9_unknown_type_not_omitted :
    buildCliConfig [] [{ type := "bogusFilterType" }] (some "client-id")
      (some "client-secret") (some "/tmp/bundle/auth-storage.yaml") =
    Except.ok
      { transformations := none,
        filters := some [{ name := "bogusFilterType" }],
        authStoragePath := "/tmp/bundle/auth-storage.yaml" } := rfl

/-- C9 (amended): `mapToCliFormat` never drops entries — the output has one
entry per input — and an entry whose type is not one of the known option ids
is passed through unchanged as `{ name: <type> }` with no config. -/
theorem mapToCliFormat_unknown_passthrough (items : List ConfigItem) (kind : String) :
    (mapToCliFormat items kind).length = items.length ∧
    (∀ item, typeToName item.type = none →
      mapCliItem item = { name := item.type, config := none }) ∧
    (∀ item ∈ items, typeToName item.type = none →
      { name := item.type, config := none : CliEntry } ∈ mapToCliFormat items kind) := by
  have hunknown : ∀ item : ConfigItem, typeToName item.type = none →
      mapCliItem item = { name := item.type, config := none } := by
    intro item h
    have h1 : item.type ≠ "titleTemplateTransformer" := by
      intro hc
      rw [hc] at h
      exact absurd h (by decide)
    have h2 : item.type ≠ "descriptionNoteTransformer" := by
      intro hc
      rw [hc] at h
      exact absurd h (by decide)
    have h3 : item.type ≠ "timeWindowFilter" := by
      intro hc
      rw [hc] at h
      exact absurd h (by decide)
    have h4 : item.type ≠ "allDayEventFilter" := by
      intro hc
      rw [hc] at h
      exact absurd h (by decide)
    unfold mapCliItem
    rw [if_neg h1, if_neg h2, if_neg h3, if_neg h4, h]
    rfl
  refine ⟨by simp [mapToCliFormat], hunknown, ?_⟩
  intro item hmem h
  rw [← hunknown item h]
  exact List.mem_map_of_mem mapCliItem hmem

/-- C2: for every cadence, previous due timestamp (or `now` when none) and
current time, `calculateNextRunAt` returns a timestamp strictly greater than
`now` that equals the base plus a positive whole number of cadence intervals,
and that is strictly greater than the previous `nextRunAt` whenever one
existed. -/
theorem calculateNextRunAt_strictly_future (cadence : SyncJobCadence)
    (previousNextRunAt : Option Int) (now : Int) :
    now < calculateNextRunAt cadence previousNextRunAt now ∧
    (∃ k : Nat, 1 ≤ k ∧ calculateNextRunAt cadence previousNextRunAt now =
      previousNextRunAt.getD now + k * cadenceMs cadence) ∧
    (∀ p, previousNextRunAt = some p →
      p < calculateNextRunAt cadence previousNextRunAt now) := by
  obtain ⟨h1, ⟨k, hk, hkeq⟩, -⟩ := calculateNextRunAt_spec cadence previousNextRunAt now
  refine ⟨h1, ⟨k, hk, hkeq⟩, ?_⟩
  intro p hp
  have hbase : previousNextRunAt.getD now = p := by rw [hp]; rfl
  rw [hkeq, hbase]
  have hpos := cadenceMs_pos cadence
  have hk1 : (1 : Int) ≤ (k : Int) := by exact_mod_cast hk
  nlinarith

/-- Witness for C2 at cadence HOURLY, previous due timestamp 5, now 100. -/
theorem calculateNextRunAt_strictly_future_witness :
    100 < calculateNextRunAt SyncJobCadence.HOURLY (some 5) 100 ∧
    5 < calculateNextRunAt SyncJobCadence.HOURLY (some 5) 100 :=
  ⟨(calculateNextRunAt_strictly_future SyncJobCadence.HOURLY (some 5) 100).1,
   (calculateNextRunAt_strictly_future SyncJobCadence.HOURLY (some 5) 100).2.2 5 rfl⟩

/-- Witness for C3: a DAILY job whose `nextRunAt` is exactly 3 days in the
past at the tick gets exactly one new PENDING run and one forward jump. -/
theorem enqueueDueSyncJobs_one_run_witness :
    (∃ rid, runsForJob (enqueueDueSyncJobs 259200000 c3db).1 c3job.id =
        runsForJob c3db c3job.id ++ [newPendingRun rid c3job.id 259200000]) ∧
    findJob (enqueueDueSyncJobs 259200000 c3db).1 c3job.id =
      some { c3job with nextRunAt := some (calculateNextRunAt c3job.cadence c3job.nextRunAt 259200000) } ∧
    259200000 < calculateNextRunAt c3job.cadence c3job.nextRunAt 259200000 ∧
    (∃ k : Nat, 1 ≤ k ∧ calculateNextRunAt c3job.cadence c3job.nextRunAt 259200000 =
        c3job.nextRunAt.getD 259200000 + k * cadenceMs c3job.cadence) :=
  ⟨(enqueueDueSyncJobs_one_run_per_due_job 259200000 c3db c3job (by decide) rfl rfl
      (by decide)).1,
   (enqueueDueSyncJobs_one_run_per_due_job 259200000 c3db c3job (by decide) rfl rfl
      (by decide)).2.1,
   (enqueueDueSyncJobs_one_run_per_due_job 259200000 c3db c3job (by decide) rfl rfl
      (by decide)).2.2.1,
   (enqueueDueSyncJobs_one_run_per_due_job 259200000 c3db c3job (by decide) rfl rfl
      (by decide)).2.2.2.1⟩

/-- Witness for C4 on a one-run database: the first claim affects one row, the
second affects zero. -/
theorem claim_race_witness :
    (updateManyClaim c4db c4run.id 10).2 = 1 ∧
    (updateManyClaim c4db c4run.id 10).1.runs.filter (fun x => x.id == c4run.id) =
      [{ c4run with status := JobRunStatus.RUNNING, startedAt := some 10 }] ∧
    (updateManyClaim (updateManyClaim c4db c4run.id 10).1 c4run.id 20).2 = 0 :=
  ⟨(claim_race_single_transition c4db c4run 10 20 (by decide) (by decide) rfl).1,
   (claim_race_single_transition c4db c4run 10 20 (by decide) (by decide) rfl).2.1,
   (claim_race_single_transition c4db c4run 10 20 (by decide) (by decide) rfl).2.2.1⟩

/-- Witness for C5 (amended): non-zero exit with the config successfully
written leaves no scratch directory behind. -/
theorem runCalendarSync_cleanup_witness :
    (runCalendarSync
      { binaryOk := true, mkdtempOk := true, writeFileOk := true,
        child := ChildOutcome.exited (some 1) none, rmOk := true } false).2 = false :=
  (runCalendarSync_cleanup
    { binaryOk := true, mkdtempOk := true, writeFileOk := true,
      child := ChildOutcome.exited (some 1) none, rmOk := true } rfl rfl).1

/-- Witness for C6: the accepted write for job `job1`, run `run1` resolves
inside the configured root. -/
theorem runLog_inside_root_witness :
    normAbs "/var/logs" <+: ["var", "logs", "job1", "run1.log"] :=
  (runLog_paths_stay_inside_root "/var/logs" "job1" "run1" "hello" "job1/run1.log").1
    "job1/run1.log" ["var", "logs", "job1", "run1.log"] rfl

/-- Witness for C7 (amended): the passphrase is fed twice on stdin and the
plaintext scratch input file is unlinked. -/
theorem createAuthStorageFile_witness :
    (createAuthStorageFile
      [{ calendarId := "primary", accessToken := "a-tok", refreshToken := "r-tok" }]
      (some "pass-1") "/tmp/in.txt" "/tmp/out.age" 0).2.stdinFed = ["pass-1", "pass-1"] ∧
    "/tmp/in.txt" ∈ (createAuthStorageFile
      [{ calendarId := "primary", accessToken := "a-tok", refreshToken := "r-tok" }]
      (some "pass-1") "/tmp/in.txt" "/tmp/out.age" 0).2.unlinked :=
  ⟨(createAuthStorageFile_secret_handling _ _ _ _ _).2.1,
   (createAuthStorageFile_secret_handling _ _ _ _ _).2.2.2.1⟩

/-- Witness for C8 (amended): a batch whose one claimed run's execution throws
still completes with totals, and a claim exception surfaces as an error. -/
theorem processPendingJobRuns_witness :
    (∃ totals, processPendingJobRuns
      [(ClaimCallResult.found 3, RunExecResult.exn "boom"),
       (ClaimCallResult.empty, RunExecResult.done true)]
      { processed := 0, succeeded := 0, failed := 0 } = Except.ok totals) ∧
    processPendingJobRuns [(ClaimCallResult.exn "db down", RunExecResult.done true)]
      { processed := 0, succeeded := 0, failed := 0 } = Except.error "db down" :=
  ⟨processPendingJobRuns_exception_policy.1 _ _ (by decide),
   processPendingJobRuns_exception_policy.2 "db down" (RunExecResult.done true) [] _⟩

/-- Witness for C9 (amended): the unknown-typed entry appears, unchanged, in
the mapped output. -/
theorem mapToCliFormat_witness :
    ({ name := "bogusFilterType", config := none : CliEntry } ∈
      mapToCliFormat [{ type := "bogusFilterType" }] "filter") :=
  (mapToCliFormat_unknown_passthrough [{ type := "bogusFilterType" }] "filter").2.2
    { type := "bogusFilterType" } (by decide) (by decide)

/-- Witness for C10 on a one-run, one-job database with a successful sync. -/
theorem executeRun_terminal_witness :
    ∃ r' j',
      (executeRun c10env c10db c10run).1.runs.find? (fun x => x.id == c10run.id) = some r' ∧
      findJob (executeRun c10env c10db c10run).1 c10run.jobId = some j' ∧
      (r'.status = JobRunStatus.SUCCESS ∨ r'.status = JobRunStatus.FAILED) ∧
      r'.status ≠ JobRunStatus.CANCELLED ∧
      r'.finishedAt = some c10env.finishTime ∧
      j'.lastRunAt = some c10env.finishTime ∧
      (r'.status = if (executeRun c10env c10db c10run).2 then JobRunStatus.SUCCESS
        else JobRunStatus.FAILED) :=
  executeRun_terminal_states c10env c10db c10run c10run c10job rfl rfl

end KitchenSync
